import Mathlib

/-!
Verification of the notify-printer layout and rendering engine.

Shallow embedding of the repository's rendering core:

* `wrapLines` (src/wrapping.js) — the greedy pixel-width line breaker.
  JS strings are modelled as `List Char`; the canvas measurement
  capability `ctx.measureText` is an explicit parameter
  `measure : Str → ℕ` (the per-token memoisation in the source is
  semantically transparent for a deterministic measure, so lookups are
  modelled as calls).  The source's `while (words.length)` loop is not
  total — exploding a one-character token reproduces the same token —
  so the loop is embedded with an explicit fuel parameter and `none`
  models divergence.
* `resize` (src/rendering.js) — raster dimension fitting.  JS float
  arithmetic is idealised as exact rational arithmetic; `x >> 3 << 3`
  on a non-negative float is truncation to an integer followed by the
  shifts, which on the exact value is `⌊·⌋` followed by `/8*8`.
* `drawText`, `newline`, `drawQRCode`, `drawImage`, `drawHTML`
  (src/rendering.js) — the canvas walker, emitting a trace of drawn
  runs / QR / image / rule blocks and threading the cursor and the
  canvas font state.  `structuredClone(options)` in the source gives
  the style context value semantics, which the embedding mirrors by
  passing `Options` by value.
* `formatHTML` and its `resize` (the command-stream client) — the
  encoder walker, emitting printer commands.
-/

/-! ## Definitions: the line wrapper (src/wrapping.js) -/

/-- JS strings at code-point granularity. -/
abbrev Str := List Char

/-- The JS `\s` class (as used by `split(/\s/)` and `trimLeft`),
restricted to the whitespace code points. -/
def isWs (c : Char) : Bool :=
  c = ' ' || c = '\t' || c = '\n' || c = '\x0b' || c = '\x0c' || c = '\r' ||
  c = '\u00A0' || c = '\u1680' || ('\u2000' ≤ c && c ≤ '\u200A') ||
  c = '\u2028' || c = '\u2029' || c = '\u202F' || c = '\u205F' ||
  c = '\u3000' || c = '\uFEFF'

/-- JS `s.split(sep-class)`: split at every character satisfying `p`;
consecutive separators yield empty pieces, `""` yields `[""]`. -/
def splitP (p : Char → Bool) : Str → List Str
  | [] => [[]]
  | c :: cs =>
    if p c then [] :: splitP p cs
    else (c :: (splitP p cs).headI) :: (splitP p cs).tail

/-- JS `s.trimLeft()` on the whitespace class. -/
def trimLeft (s : Str) : Str := s.dropWhile isWs

/-- JS `line.split(/\s/).map((word, i) => i > 0 ? ' ' + word : word)`:
re-attach a single leading space to every token but the first. -/
def addSpaces : List Str → List Str
  | [] => []
  | w :: ws => w :: ws.map (fun w' => ' ' :: w')

/-- The token list the `while` loop of `wrapLines` starts from for one
input segment. -/
def mkWords (seg : Str) : List Str := addSpaces (splitP isWs seg)

/-- JS `word.split('')`: explode a token into one-character tokens. -/
def explode (w : Str) : List Str := w.map (fun c => [c])

/-- The `while (words.length)` loop of `wrapLines`.  The list head is
the next token (`words.pop()` on the reversed JS array).  `fuel` bounds
the number of iterations; `none` models a loop that is still running —
the source loop diverges when a one-character token wider than
`max_width` is exploded to itself.  Returns `(x, line, output_lines)`. -/
def procWordsF (measure : Str → ℕ) (maxW : ℕ) :
    ℕ → List Str → ℕ → Str → List Str → Option (ℕ × Str × List Str)
  | _, [], x, line, out => some (x, line, out)
  | 0, _ :: _, _, _, _ => none
  | fuel + 1, w :: ws, x, line, out =>
    if maxW < measure w then
      procWordsF measure maxW fuel (explode w ++ ws) x line out
    else if maxW < x + measure w then
      procWordsF measure maxW fuel ws (measure (trimLeft w)) (trimLeft w)
        (out ++ [line])
    else
      procWordsF measure maxW fuel ws (x + measure w) (line ++ w) out

/-- The `for (let line of input_lines)` loop of `wrapLines`: each
segment restarts the line buffer at `''`, keeps the running `x`, and
appends the final non-empty buffer. -/
def procSegmentsF (measure : Str → ℕ) (maxW fuel : ℕ) :
    List Str → ℕ → List Str → Option (List Str)
  | [], _, out => some out
  | seg :: segs, x, out =>
    match procWordsF measure maxW fuel (mkWords seg) x [] out with
    | none => none
    | some (x', line, out') =>
      procSegmentsF measure maxW fuel segs x'
        (if line = [] then out' else out' ++ [line])

/-- The tail of `wrapLines` after the leading-space adjustment: the defensive
`x > max_width` normalisation, then the per-segment loop. -/
def wrapAfterSpace (fuel : ℕ) (measure : Str → ℕ) (maxW x : ℕ) (text : Str) :
    Option (List Str) :=
  if maxW < x then
    procSegmentsF measure maxW fuel (splitP (fun c => c = '\n') text) 0 [[]]
  else
    procSegmentsF measure maxW fuel (splitP (fun c => c = '\n') text) x []

/-- The function `wrapLines(ctx, x, text)` from src/wrapping.js with
`measure = ctx.measureText` and `maxW = ctx.canvas.width`.  `none`
models non-termination of the source loop (no fuel suffices). -/
def wrapLines (fuel : ℕ) (measure : Str → ℕ) (maxW x : ℕ) (text : Str) :
    Option (List Str) :=
  if 0 < x ∧ text = [] then some [[]]
  else
    wrapAfterSpace fuel measure maxW
      (if 0 < x then x + measure [' '] else x) text

/-- A deterministic additive measure: the width of a string is the sum
of the widths of its characters. -/
def sumW (cw : Char → ℕ) (s : Str) : ℕ := (s.map cw).sum

/-- Termination potential of the token stack: exploding a token of
length `n ≠ 1` strictly decreases it, consuming a token strictly
decreases it; exploding a one-character token does not. -/
def cost (ws : List Str) : ℕ := (ws.map (fun w => 3 ^ w.length)).sum

/-- Every single character occurring in the pending tokens fits on a
line by itself. -/
def charsOk (measure : Str → ℕ) (maxW : ℕ) (ws : List Str) : Prop :=
  ∀ w ∈ ws, ∀ c ∈ w, measure [c] ≤ maxW

/-! ## Definitions: raster dimension fitting (`resize` of src/rendering.js) -/

/-- JS `(x + 7) >> 3 << 3` on a non-negative integer: round up to the next
multiple of 8. -/
def ru8 (n : ℕ) : ℕ := ((n + 7) / 8) * 8

/-- The function `resize(max_width, width, height)` from src/rendering.js: clamp the
width to the paper, scale the height proportionally, and align both to
8 pixels.  The JS float `height * (width / initial_width)` is idealised
as the exact rational; `x >> 3` applies ToInt32 first, which truncates
the non-negative float, so the aligned height is computed from
`⌊height · min(width, max_width) / width⌋`, i.e. `height * w2 / width`
in natural division. -/
def resize (max_width width height : ℕ) : ℕ × ℕ :=
  let w2 := min width max_width
  let h2 := height * w2 / width
  (ru8 w2, ru8 h2)

/-- The height formula exactly as the claim words it: the *exact
rational* scaled height `h · min(w, p) / w`, rounded up to the nearest
multiple of 8.  (Modelled from the spec, for comparison against the
source's `resize`.) -/
def claimHeightQ (p w h : ℕ) : ℚ := 8 * ⌈((h : ℚ) * (min w p : ℚ) / (w : ℚ)) / 8⌉

/-! ## Definitions: the canvas walker (src/rendering.js) -/

/-- The canvas font state set by `ctx.font = [italic, bold, size+'px',
family].join(' ')`.  `size` is in exact hundredths of a pixel (the JS
values 30·scale for scale ∈ {0.75, 1, 1.25, 1.5, 2} are all exact
multiples of 0.01, so the representation is lossless). -/
structure FontSpec where
  italic : Bool
  bold : Bool
  size : ℕ
  mono : Bool
deriving DecidableEq, Repr

/-- The `options` object threaded through `drawHTML`/`drawText`.
`scale` is in exact hundredths (100 = the JS scale 1, 200 = 2, …);
`scale = 0` models the absent (JS `undefined`, falsy) field, which
`options.scale ||= 1` normalises; the source's `structuredClone` gives
the object value semantics. -/
structure Options where
  bold : Bool := false
  italic : Bool := false
  underline : Bool := false
  strike : Bool := false
  invert : Bool := false
  monospace : Bool := false
  newline : Bool := false
  scale : ℕ := 0
deriving DecidableEq, Repr

/-- The style a text run is painted with: the active font plus the
decoration flags (`invert` background, strike-through and underline
rectangles). -/
structure RunStyle where
  font : FontSpec
  invert : Bool
  strike : Bool
  underline : Bool
deriving DecidableEq, Repr

/-- The rendering cursor `[x, y]` plus the mutable `ctx.font` state. -/
structure Cur where
  x : ℕ
  y : ℕ
  font : FontSpec
deriving DecidableEq, Repr

/-- One painting side effect on the canvas. -/
inductive Out where
  | run (text : Str) (x y : ℕ) (st : RunStyle)
  | rule (y : ℕ)
  | qr (dat : Str) (x y w h : ℕ)
  | img (x y w h : ℕ)
deriving DecidableEq, Repr

/-- The sequence of painting side effects of one render. -/
abbrev Trace' := List Out

/-- Outcome of `new URL(src)` plus `loadImage`: the URL fails to parse,
or parses with some protocol and the fetch/decode either resolves with
the image's dimensions or rejects. -/
inductive FetchResult where
  | parseError
  | scheme (protocol : String) (load : Option (ℕ × ℕ))
deriving DecidableEq, Repr

/-- The ambient capabilities of the walker: font metrics (measurement,
line height `emHeightAscent + emHeightDescent`, descent), the square
canvas size `QRCode.toCanvas` produces, the canvas width, the
`wrapLines` fuel and the network world for `IMG` sources. -/
structure RCfg where
  M : FontSpec → Str → ℕ
  lhF : FontSpec → ℕ
  descF : FontSpec → ℕ
  qrSz : Str → ℕ
  maxW : ℕ
  fuel : ℕ
  env : Str → FetchResult

/-- JS `options.scale ||= 1` (in hundredths: the unset scale becomes 100,
i.e. 1). -/
def effScale (opts : Options) : ℕ := if opts.scale = 0 then 100 else opts.scale

/-- The font `drawText` installs on the context. -/
def fontOf (opts : Options) : FontSpec :=
  { italic := opts.italic, bold := opts.bold, size := 30 * effScale opts,
    mono := opts.monospace }

/-- The `for (i in lines)` loop of `drawText`: the first line is drawn
at the incoming `x`, every further line at `x = 0` one line-height
down.  Returns the runs, the position and baseline of the last line,
and the last line itself (whose measured width the source keeps in
`width`). -/
def drawRuns (lh : ℕ) (st : RunStyle) : List Str → ℕ → ℕ → Trace' × ℕ × ℕ × Str
  | [], x, y => ([], x, y, [])
  | [l], x, y => ([Out.run l x y st], x, y, l)
  | l :: l' :: ls, x, y =>
    let r := drawRuns lh st (l' :: ls) 0 (y + lh)
    (Out.run l x y st :: r.1, r.2)

/-- The function `drawText(ctx, x, y, text, options)` from src/rendering.js.  `none`
models a diverging `wrapLines` call. -/
def drawText (cfg : RCfg) (text : Str) (opts : Options) (c : Cur) :
    Option (Trace' × Cur) :=
  let nl := opts.newline || decide (100 < effScale opts)
  let font := fontOf opts
  let st : RunStyle :=
    { font := font, invert := opts.invert,
      strike := opts.strike, underline := opts.underline }
  let lh := cfg.lhF font
  match wrapLines cfg.fuel (cfg.M font) cfg.maxW c.x text with
  | none => none
  | some [] => some ([], { c with font := font })
  | some (l :: ls) =>
    let r := drawRuns lh st (l :: ls) c.x (c.y + lh)
    if nl then some (r.1, { x := 0, y := r.2.2.1, font := font })
    else some (r.1,
      { x := r.2.1 + cfg.M font r.2.2.2, y := r.2.2.1 - lh, font := font })

/-- The function `newline(ctx, x, y, safe)`: flush a partial line via
`drawText(…, '', {newline: true})` and, for `safe`, reserve the
descender height of the (then current) font. -/
def newlineF (cfg : RCfg) (c : Cur) (safe : Bool) : Trace' × Cur :=
  let r :=
    if 0 < c.x then
      match drawText cfg [] { newline := true } c with
      | some r => r
      | none => ([], c)
    else ([], c)
  if safe then (r.1, { r.2 with y := r.2.y + cfg.descF r.2.font }) else r

/-- The function `drawQRCode(ctx, x, y, data)`: rasterise the QR code, resize it to
the paper, break the line safely and paint it; the cursor continues at
`[0, y + dy]`. -/
def drawQRCode (cfg : RCfg) (dat : Str) (c : Cur) : Trace' × Cur :=
  let q := cfg.qrSz dat
  let d := resize cfg.maxW q q
  let r := newlineF cfg c true
  (r.1 ++ [Out.qr dat r.2.x r.2.y d.1 d.2],
    { x := 0, y := r.2.y + d.2, font := r.2.font })

/-- The function `drawImage(ctx, x, y, src)`: parse the URL (`.error` models the
constructor throwing), silently return the unchanged cursor for a
non-`https:` protocol, otherwise load (`.error` models a rejected
`loadImage`), resize and paint. -/
def drawImage (cfg : RCfg) (src : Str) (c : Cur) :
    Except Unit (Trace' × Cur) :=
  match cfg.env src with
  | .parseError => .error ()
  | .scheme protocol load =>
    if protocol ≠ "https:" then .ok ([], c)
    else
      match load with
      | none => .error ()
      | some wh =>
        let d := resize cfg.maxW wh.1 wh.2
        let r := newlineF cfg c true
        .ok (r.1 ++ [Out.img r.2.x r.2.y d.1 d.2],
          { x := 0, y := r.2.y + d.2, font := r.2.font })

/-- JS `element.color && element.color != '#000000'` for the FONT tag. -/
def fontInverts (color : Option String) : Bool :=
  match color with
  | none => false
  | some col => col ≠ "" && col ≠ "#000000"

/-- Attributes the walker reads: `href` (A), `src` (IMG, VIDEO, AUDIO,
EMBED), `data` (OBJECT) and `color` (FONT, `none` = absent). -/
structure Attrs where
  href : Str := []
  src : Str := []
  dat : Str := []
  color : Option String := none

/-- A parsed markup node: a text node or an element with a tag, its
attributes and child nodes (the document root and unrecognised tags
are `elem` with an unhandled tag string). -/
inductive Node where
  | text (s : Str)
  | elem (tag : String) (attrs : Attrs) (kids : List Node)

/-- The `'#text'` case of `drawHTML`: split the content on newlines and
draw every segment, all but the last with a forced line break. -/
def drawTextSegs (cfg : RCfg) (opts : Options) :
    List Str → Cur → Option (Trace' × Cur)
  | [], c => some ([], c)
  | [l], c => drawText cfg l { opts with newline := false } c
  | l :: l' :: ls, c =>
    match drawText cfg l { opts with newline := true } c with
    | none => none
    | some (t, c1) =>
      match drawTextSegs cfg opts (l' :: ls) c1 with
      | none => none
      | some (t2, c2) => some (t ++ t2, c2)

mutual

/-- The function `drawHTML(ctx, x, y, element, options)` from src/rendering.js: the
tag switch (which may emit immediately and/or update the cloned style
context), then the traversal of the children with the updated context. -/
def drawHTML (cfg : RCfg) : Node → Options → Cur → Option (Trace' × Cur)
  | .text s, opts, c =>
    drawTextSegs cfg opts (splitP (fun ch => ch = '\n') s) c
  | .elem tag attrs kids, opts, c =>
    match tag with
    | "STRONG" => drawHTMLList cfg kids { opts with bold := true } c
    | "B" => drawHTMLList cfg kids { opts with bold := true } c
    | "EM" => drawHTMLList cfg kids { opts with italic := true } c
    | "I" => drawHTMLList cfg kids { opts with italic := true } c
    | "U" => drawHTMLList cfg kids { opts with underline := true } c
    | "STRIKE" => drawHTMLList cfg kids { opts with strike := true } c
    | "FONT" =>
      drawHTMLList cfg kids
        (if fontInverts attrs.color then { opts with invert := true }
         else opts) c
    | "MARK" => drawHTMLList cfg kids { opts with invert := true } c
    | "PRE" => drawHTMLList cfg kids { opts with monospace := true } c
    | "A" =>
      let r := drawQRCode cfg attrs.href c
      match drawHTMLList cfg kids opts r.2 with
      | none => none
      | some (t2, c2) => some (r.1 ++ t2, c2)
    | "HR" =>
      match drawHTMLList cfg kids opts c with
      | none => none
      | some (t2, c2) => some (Out.rule c.y :: t2, c2)
    | "BR" =>
      let r := newlineF cfg c false
      match drawHTMLList cfg kids opts r.2 with
      | none => none
      | some (t2, c2) => some (r.1 ++ t2, c2)
    | "LI" =>
      match drawText cfg ("• ").data {} c with
      | none => none
      | some (t, c1) =>
        match drawHTMLList cfg kids opts c1 with
        | none => none
        | some (t2, c2) => some (t ++ t2, c2)
    | "H1" => drawHTMLList cfg kids { opts with scale := 200 } c
    | "H2" => drawHTMLList cfg kids { opts with scale := 150 } c
    | "H3" => drawHTMLList cfg kids { opts with scale := 125 } c
    | "BIG" => drawHTMLList cfg kids { opts with scale := 125 } c
    | "SMALL" => drawHTMLList cfg kids { opts with scale := 75 } c
    | "IMG" =>
      match drawImage cfg attrs.src c with
      | .ok (t, c1) =>
        match drawHTMLList cfg kids opts c1 with
        | none => none
        | some (t2, c2) => some (t ++ t2, c2)
      | .error _ =>
        let r := drawQRCode cfg attrs.src c
        match drawHTMLList cfg kids opts r.2 with
        | none => none
        | some (t2, c2) => some (r.1 ++ t2, c2)
    | "VIDEO" =>
      let r := drawQRCode cfg attrs.src c
      match drawHTMLList cfg kids opts r.2 with
      | none => none
      | some (t2, c2) => some (r.1 ++ t2, c2)
    | "AUDIO" =>
      let r := drawQRCode cfg attrs.src c
      match drawHTMLList cfg kids opts r.2 with
      | none => none
      | some (t2, c2) => some (r.1 ++ t2, c2)
    | "EMBED" =>
      let r := drawQRCode cfg attrs.src c
      match drawHTMLList cfg kids opts r.2 with
      | none => none
      | some (t2, c2) => some (r.1 ++ t2, c2)
    | "OBJECT" =>
      let r := drawQRCode cfg attrs.dat c
      match drawHTMLList cfg kids opts r.2 with
      | none => none
      | some (t2, c2) => some (r.1 ++ t2, c2)
    | _ => drawHTMLList cfg kids opts c

/-- The `for (let child of children)` loop: every child receives the
parent's (locally updated) options and threads the cursor. -/
def drawHTMLList (cfg : RCfg) : List Node → Options → Cur → Option (Trace' × Cur)
  | [], _, c => some ([], c)
  | n :: ns, opts, c =>
    match drawHTML cfg n opts c with
    | none => none
    | some (t, c1) =>
      match drawHTMLList cfg ns opts c1 with
      | none => none
      | some (t2, c2) => some (t ++ t2, c2)

end

/-- Texts of the drawn runs of a trace, in order. -/
def runTexts : Trace' → List Str
  | [] => []
  | Out.run t _ _ _ :: rest => t :: runTexts rest
  | _ :: rest => runTexts rest

/-- Data strings of the QR blocks of a trace, in order. -/
def qrDatas : Trace' → List Str
  | [] => []
  | Out.qr d _ _ _ _ :: rest => d :: qrDatas rest
  | _ :: rest => qrDatas rest

/-- Texts and styles of the drawn runs of a trace, in order. -/
def runStyles : Trace' → List (Str × RunStyle)
  | [] => []
  | Out.run t _ _ st :: rest => (t, st) :: runStyles rest
  | _ :: rest => runStyles rest

/-- A concrete capability instantiation for witnesses and
counterexamples: width = character count, fixed metrics, fetches fail
to parse unless overridden. -/
def testCfg : RCfg :=
  { M := fun _ s => s.length, lhF := fun _ => 10, descF := fun _ => 2,
    qrSz := fun _ => 16, maxW := 100, fuel := 100,
    env := fun _ => .parseError }

/-! ## Definitions: the encoder walker (`formatHTML` of the command-stream client) -/

/-- A printer command accumulated by the `ReceiptPrinterEncoder`
(`align` is `center`/`left`, `size (n, n)` is always square). -/
inductive Cmd where
  | bold (b : Bool)
  | italic (b : Bool)
  | underline (b : Bool)
  | invert (b : Bool)
  | align (center : Bool)
  | size (n : ℕ)
  | text (s : Str)
  | line (s : Str)
  | newline
  | rule
  | qrcode (s : Str)
  | image (w h : ℕ)
deriving DecidableEq, Repr

/-- The encoder-side `resize(width, height)`: paper width is
`columns * 12` pixels; both dimensions are scaled to fit and rounded to
the *nearest* multiple of 8 (`Math.round(x / 8) * 8`, half away from
zero), the scaled height again idealised as the exact rational before
rounding: `round(q/8)·8 = ⌊q/8 + 1/2⌋·8 = ((h·w2 + 4·w) / (8·w))·8`. -/
def resizeEnc (columns w h : ℕ) : ℕ × ℕ :=
  let paper := columns * 12
  let w2 := min w paper
  (((w2 + 4) / 8) * 8, ((h * w2 + 4 * w) / (8 * w)) * 8)

/-- The `'#text'` case of `formatHTML`: all segments but the last are
emitted as `line` (or `newline` when blank, since the encoder flushes
on an empty line); a non-empty last segment is emitted as an in-flow
`text`. -/
def textCmds : List Str → List Cmd
  | [] => []
  | [l] => if l = [] then [] else [Cmd.text l]
  | l :: l' :: ls =>
    (if l = [] then Cmd.newline else Cmd.line l) :: textCmds (l' :: ls)

mutual

/-- The function `formatHTML(config, encoder, element)`: the tag switch emits
immediate commands and registers an `after` callback, then the children
are traversed, then `after` runs.  `envE src = none` models a
`loadImage` rejection. -/
def formatHTML (envE : Str → Option (ℕ × ℕ)) (columns : ℕ) :
    Node → List Cmd
  | .text s => textCmds (splitP (fun ch => ch = '\n') s)
  | .elem tag attrs kids =>
    let inner := formatHTMLList envE columns kids
    match tag with
    | "STRONG" => Cmd.bold true :: inner ++ [Cmd.bold false]
    | "B" => Cmd.bold true :: inner ++ [Cmd.bold false]
    | "EM" => Cmd.italic true :: inner ++ [Cmd.italic false]
    | "I" => Cmd.italic true :: inner ++ [Cmd.italic false]
    | "U" => Cmd.underline true :: inner ++ [Cmd.underline false]
    | "FONT" =>
      if fontInverts attrs.color then
        Cmd.invert true :: inner ++ [Cmd.invert false]
      else inner
    | "MARK" => Cmd.invert true :: inner ++ [Cmd.invert false]
    | "A" => Cmd.qrcode attrs.href :: inner
    | "HR" => Cmd.rule :: inner
    | "BR" => Cmd.newline :: inner
    | "LI" => Cmd.text (" - ").data :: inner
    | "CENTER" => Cmd.align true :: inner ++ [Cmd.align false]
    | "H1" => Cmd.size 4 :: inner ++ [Cmd.size 1]
    | "H2" => Cmd.size 3 :: inner ++ [Cmd.size 1]
    | "H3" => Cmd.size 2 :: inner ++ [Cmd.size 1]
    | "BIG" => Cmd.size 2 :: inner ++ [Cmd.size 1]
    | "Q" => Cmd.text ['"'] :: inner ++ [Cmd.text ['"']]
    | "BLOCKQUOTE" =>
      Cmd.align true :: Cmd.text ['"'] :: inner ++
        [Cmd.text ['"'], Cmd.align false]
    | "IMG" =>
      if attrs.src = [] then inner
      else
        match envE attrs.src with
        | some wh =>
          Cmd.image (resizeEnc columns wh.1 wh.2).1
            (resizeEnc columns wh.1 wh.2).2 :: inner
        | none => Cmd.qrcode attrs.src :: inner
    | "VIDEO" => Cmd.qrcode attrs.src :: inner
    | "AUDIO" => Cmd.qrcode attrs.src :: inner
    | "EMBED" => Cmd.qrcode attrs.src :: inner
    | "OBJECT" => Cmd.qrcode attrs.dat :: inner
    | _ => inner

def formatHTMLList (envE : Str → Option (ℕ × ℕ)) (columns : ℕ) :
    List Node → List Cmd
  | [] => []
  | n :: ns => formatHTML envE columns n ++ formatHTMLList envE columns ns

end

/-- The style state of the printer encoder: each flag is toggled by the
corresponding command, starting from the defaults. -/
structure EncStyle where
  bold : Bool := false
  italic : Bool := false
  underline : Bool := false
  invert : Bool := false
  center : Bool := false
  size : ℕ := 1
deriving DecidableEq, Repr

def encStep (st : EncStyle) : Cmd → EncStyle
  | .bold b => { st with bold := b }
  | .italic b => { st with italic := b }
  | .underline b => { st with underline := b }
  | .invert b => { st with invert := b }
  | .align b => { st with center := b }
  | .size n => { st with size := n }
  | _ => st

/-- The encoder style after executing a command list from `st`. -/
def encStateAfter (cmds : List Cmd) (st : EncStyle) : EncStyle :=
  cmds.foldl encStep st

/-- The text runs of a command stream, each paired with the encoder
style it is printed under. -/
def encRuns : List Cmd → EncStyle → List (Str × EncStyle)
  | [], _ => []
  | Cmd.text s :: rest, st => (s, st) :: encRuns rest st
  | Cmd.line s :: rest, st => (s, st) :: encRuns rest st
  | cmd :: rest, st => encRuns rest (encStep st cmd)

/-! ## Width invariant (C1) -/

theorem sumW_append (cw : Char → ℕ) (a b : Str) :
    sumW cw (a ++ b) = sumW cw a + sumW cw b := by
  simp [sumW]

theorem sumW_trimLeft_le (cw : Char → ℕ) (w : Str) :
    sumW cw (trimLeft w) ≤ sumW cw w := by
  have h := List.takeWhile_append_dropWhile (p := isWs) (l := w)
  calc sumW cw (trimLeft w) ≤ sumW cw (w.takeWhile isWs) + sumW cw (w.dropWhile isWs) :=
        Nat.le_add_left _ _
    _ = sumW cw w := by rw [← sumW_append, h]

/-- Loop invariant of the `while` loop under an additive measure: the
buffered line never outweighs the running `x`, `x` never exceeds
`max_width`, and every flushed line fits. -/
theorem procWordsF_inv (cw : Char → ℕ) (maxW : ℕ) :
    ∀ fuel ws x line out x' line' out',
      procWordsF (sumW cw) maxW fuel ws x line out = some (x', line', out') →
      sumW cw line ≤ x → x ≤ maxW → (∀ l ∈ out, sumW cw l ≤ maxW) →
      sumW cw line' ≤ x' ∧ x' ≤ maxW ∧ ∀ l ∈ out', sumW cw l ≤ maxW := by
  intro fuel
  induction fuel with
  | zero =>
    intro ws x line out x' line' out' h h1 h2 h3
    match ws, h with
    | [], h =>
      simp only [procWordsF, Option.some.injEq, Prod.mk.injEq] at h
      obtain ⟨rfl, rfl, rfl⟩ := h
      exact ⟨h1, h2, h3⟩
    | _ :: _, h => simp [procWordsF] at h
  | succ fuel ih =>
    intro ws x line out x' line' out' h h1 h2 h3
    match ws, h with
    | [], h =>
      simp only [procWordsF, Option.some.injEq, Prod.mk.injEq] at h
      obtain ⟨rfl, rfl, rfl⟩ := h
      exact ⟨h1, h2, h3⟩
    | w :: ws, h =>
      simp only [procWordsF] at h
      split_ifs at h with hw hx
      · exact ih _ _ _ _ _ _ _ h h1 h2 h3
      · refine ih _ _ _ _ _ _ _ h le_rfl ?_ ?_
        · exact le_trans (sumW_trimLeft_le cw w) (Nat.not_lt.mp hw)
        · intro l hl
          rcases List.mem_append.mp hl with hl | hl
          · exact h3 l hl
          · rcases List.mem_singleton.mp hl with rfl
            exact le_trans h1 h2
      · refine ih _ _ _ _ _ _ _ h ?_ (Nat.not_lt.mp hx) h3
        rw [sumW_append]
        exact Nat.add_le_add_right h1 _

/-- Segment-loop invariant: all produced lines fit, provided the
incoming `x` is already normalised below `max_width`. -/
theorem procSegmentsF_inv (cw : Char → ℕ) (maxW fuel : ℕ) :
    ∀ segs x out out',
      procSegmentsF (sumW cw) maxW fuel segs x out = some out' →
      x ≤ maxW → (∀ l ∈ out, sumW cw l ≤ maxW) →
      ∀ l ∈ out', sumW cw l ≤ maxW := by
  intro segs
  induction segs with
  | nil =>
    intro x out out' h hx hout
    simp only [procSegmentsF, Option.some.injEq] at h
    exact h ▸ hout
  | cons seg segs ih =>
    intro x out out' h hx hout
    simp only [procSegmentsF] at h
    cases hw : procWordsF (sumW cw) maxW fuel (mkWords seg) x [] out with
    | none => rw [hw] at h; exact absurd h (by simp)
    | some r =>
      obtain ⟨x1, line, out1⟩ := r
      rw [hw] at h
      obtain ⟨hline, hx1, hout1⟩ :=
        procWordsF_inv cw maxW fuel _ _ _ _ _ _ _ hw (by simp [sumW]) hx hout
      refine ih _ _ _ h hx1 ?_
      split
      · exact hout1
      · intro l hl
        rcases List.mem_append.mp hl with hl | hl
        · exact hout1 l hl
        · rcases List.mem_singleton.mp hl with rfl
          exact le_trans hline hx1

/-- C1. For every deterministic additive measure, every `maxWidth`,
`startX` and text, each line produced by `wrapLines` has measured width
at most `maxWidth`, except lines consisting of a single character
produced by exploding a token whose own width exceeds `maxWidth`.
(The proof in fact establishes the first disjunct outright: whenever the
source loop terminates, no exceptional line exists, because a single
character wider than `max_width` makes the loop diverge instead.) -/
theorem wrapLines_width_invariant (cw : Char → ℕ) (fuel maxW x : ℕ) (text : Str)
    (out : List Str) (h : wrapLines fuel (sumW cw) maxW x text = some out) :
    ∀ l ∈ out, sumW cw l ≤ maxW ∨ (l.length = 1 ∧ maxW < sumW cw l) := by
  have haft : ∀ x1, wrapAfterSpace fuel (sumW cw) maxW x1 text = some out →
      ∀ l ∈ out, sumW cw l ≤ maxW := by
    intro x1 h1
    unfold wrapAfterSpace at h1
    split_ifs at h1 with h2
    · refine procSegmentsF_inv cw maxW fuel _ _ _ _ h1 (Nat.zero_le _) ?_
      intro l hl
      rcases List.mem_singleton.mp hl with rfl
      simp [sumW]
    · exact procSegmentsF_inv cw maxW fuel _ _ _ _ h1 (Nat.not_lt.mp h2)
        (by intro l hl; simp at hl)
  have hall : ∀ l ∈ out, sumW cw l ≤ maxW := by
    unfold wrapLines at h
    split_ifs at h with h0
    · simp only [Option.some.injEq] at h
      subst h
      intro l hl
      rcases List.mem_singleton.mp hl with rfl
      simp [sumW]
    · exact haft _ h
    · exact haft _ h
  exact fun l hl => Or.inl (hall l hl)

/-- Witness for C1 at a concrete input: wrapping `"ab cd ef"` with every
character 10px wide at `maxWidth = 25` produces the line `"ab"`, which
fits. -/
theorem wrapLines_width_invariant_witness :
    sumW (fun _ => 10) ['a', 'b'] ≤ 25 ∨
      ((['a', 'b'] : Str).length = 1 ∧ 25 < sumW (fun _ => 10) ['a', 'b']) :=
  wrapLines_width_invariant (fun _ => 10) 100 25 0 ("ab cd ef").data
    [['a','b'], ['c','d'], ['e','f']] (by decide) ['a','b'] (by decide)

/-! ## Termination of the explosion loop (C2) -/

theorem cost_cons (w : Str) (ws : List Str) :
    cost (w :: ws) = 3 ^ w.length + cost ws := by simp [cost]

theorem cost_append (a b : List Str) : cost (a ++ b) = cost a + cost b := by
  simp [cost]

theorem cost_explode (w : Str) : cost (explode w) = 3 * w.length := by
  induction w with
  | nil => rfl
  | cons c cs ih => simp only [explode, List.map_cons] at *
                    rw [cost_cons] at *
                    simp [ih]; ring

theorem three_mul_lt_pow (n : ℕ) (h : n ≠ 1) : 3 * n < 3 ^ n := by
  match n, h with
  | 0, _ => decide
  | n + 2, _ =>
    clear h
    induction n with
    | zero => decide
    | succ k ih =>
      have h9 : 9 ≤ 3 ^ (k + 2) := by
        calc (9 : ℕ) = 3 ^ 2 := by norm_num
          _ ≤ 3 ^ (k + 2) := Nat.pow_le_pow_right (by norm_num) (by omega)
      rw [pow_succ]
      omega

/-- If every pending character fits, the `while` loop terminates within
`cost ws` iterations (each iteration strictly decreases the potential). -/
theorem procWordsF_total (measure : Str → ℕ) (maxW : ℕ) :
    ∀ fuel ws x line out, charsOk measure maxW ws → cost ws ≤ fuel →
      ∃ r, procWordsF measure maxW fuel ws x line out = some r := by
  intro fuel
  induction fuel with
  | zero =>
    intro ws x line out _ hc
    match ws with
    | [] => exact ⟨_, rfl⟩
    | w :: ws =>
      rw [cost_cons] at hc
      have : 0 < 3 ^ w.length := Nat.pos_pow_of_pos _ (by norm_num)
      omega
  | succ fuel ih =>
    intro ws x line out hok hc
    match ws with
    | [] => exact ⟨_, rfl⟩
    | w :: ws =>
      simp only [procWordsF]
      split_ifs with hw hx
      · have hlen : w.length ≠ 1 := by
          intro hl
          obtain ⟨c, rfl⟩ := List.length_eq_one.mp hl
          exact absurd hw
            (Nat.not_lt.mpr (hok [c] (List.mem_cons_self _ _) c (by simp)))
        refine ih _ _ _ _ ?_ ?_
        · intro w' hw' c hc'
          rcases List.mem_append.mp hw' with hw' | hw'
          · obtain ⟨c0, hc0, rfl⟩ := List.mem_map.mp hw'
            rcases List.mem_singleton.mp hc' with rfl
            exact hok w (List.mem_cons_self _ _) c hc0
          · exact hok w' (List.mem_cons_of_mem _ hw') c hc'
        · rw [cost_append, cost_explode]
          rw [cost_cons] at hc
          have := three_mul_lt_pow w.length hlen
          omega
      all_goals
        refine ih _ _ _ _ (fun w' hw' c hc' =>
          hok w' (List.mem_cons_of_mem _ hw') c hc') ?_
      all_goals
        rw [cost_cons] at hc
        have : 0 < 3 ^ w.length := Nat.pos_pow_of_pos _ (by norm_num)
        omega

theorem procSegmentsF_total (measure : Str → ℕ) (maxW fuel : ℕ) :
    ∀ segs x out, (∀ seg ∈ segs, charsOk measure maxW (mkWords seg)) →
      (∀ seg ∈ segs, cost (mkWords seg) ≤ fuel) →
      ∃ r, procSegmentsF measure maxW fuel segs x out = some r := by
  intro segs
  induction segs with
  | nil => exact fun x out _ _ => ⟨out, rfl⟩
  | cons seg segs ih =>
    intro x out hok hc
    obtain ⟨⟨x1, line, out1⟩, hw⟩ :=
      procWordsF_total measure maxW fuel (mkWords seg) x [] out
        (hok seg (List.mem_cons_self _ _)) (hc seg (List.mem_cons_self _ _))
    simp only [procSegmentsF]
    rw [hw]
    exact ih _ _ (fun s hs => hok s (List.mem_cons_of_mem _ hs))
      (fun s hs => hc s (List.mem_cons_of_mem _ hs))

theorem splitP_ne_nil (p : Char → Bool) (s : Str) : splitP p s ≠ [] := by
  cases s with
  | nil => simp [splitP]
  | cons a s => simp only [splitP]; split_ifs <;> simp

/-- Characters of a `split` piece come from the split string. -/
theorem mem_of_mem_splitP (p : Char → Bool) :
    ∀ (s w : Str) (c : Char), w ∈ splitP p s → c ∈ w → c ∈ s := by
  intro s
  induction s with
  | nil =>
    intro w c hw hc
    simp only [splitP, List.mem_singleton] at hw
    subst hw
    simp at hc
  | cons a s ih =>
    intro w c hw hc
    simp only [splitP] at hw
    by_cases hp : p a
    · rw [if_pos hp] at hw
      rcases List.mem_cons.mp hw with rfl | hw
      · simp at hc
      · exact List.mem_cons_of_mem _ (ih w c hw hc)
    · rw [if_neg hp] at hw
      rcases List.mem_cons.mp hw with rfl | hw
      · rcases List.mem_cons.mp hc with rfl | hc
        · exact List.mem_cons_self _ _
        · refine List.mem_cons_of_mem _ (ih _ c ?_ hc)
          cases hsp : splitP p s with
          | nil => exact absurd hsp (splitP_ne_nil p s)
          | cons w0 ws => simp [hsp]
      · exact List.mem_cons_of_mem _ (ih w c (List.mem_of_mem_tail hw) hc)

/-- Characters of the tokens of a segment are the segment's characters
plus the re-attached leading space. -/
theorem mem_of_mem_mkWords (seg w : Str) (c : Char)
    (hw : w ∈ mkWords seg) (hc : c ∈ w) : c = ' ' ∨ c ∈ seg := by
  unfold mkWords addSpaces at hw
  cases hsp : splitP isWs seg with
  | nil => rw [hsp] at hw; simp at hw
  | cons w0 ws =>
    rw [hsp] at hw
    rcases List.mem_cons.mp hw with rfl | hw
    · exact Or.inr (mem_of_mem_splitP isWs seg w c
        (hsp ▸ List.mem_cons_self _ _) hc)
    · obtain ⟨w1, hw1, rfl⟩ := List.mem_map.mp hw
      rcases List.mem_cons.mp hc with rfl | hc
      · exact Or.inl rfl
      · exact Or.inr (mem_of_mem_splitP isWs seg w1 c
          (hsp ▸ List.mem_cons_of_mem _ hw1) hc)

/-- C2 (amended). `wrapLines` terminates whenever every character of
the text — and the space character the wrapper re-attaches between
words — has measured width at most `maxWidth`: exploding a
multi-character token always strictly decreases the termination
potential.  (Without that proviso the claim is false, see the
counterexample: a one-character token wider than `maxWidth` is exploded
to itself and the loop never terminates.) -/
theorem wrapLines_terminates (measure : Str → ℕ) (maxW x : ℕ) (text : Str)
    (hc : ∀ c ∈ text, measure [c] ≤ maxW) (hsp : measure [' '] ≤ maxW) :
    ∃ fuel out, wrapLines fuel measure maxW x text = some out := by
  by_cases h0 : 0 < x ∧ text = []
  · exact ⟨0, [[]], by unfold wrapLines; rw [if_pos h0]⟩
  · set F : ℕ := ((splitP (fun c => c = '\n') text).map
      (fun s => cost (mkWords s))).sum with hF
    have htotal : ∀ x0 out0,
        ∃ r, procSegmentsF measure maxW F
          (splitP (fun c => c = '\n') text) x0 out0 = some r := by
      intro x0 out0
      refine procSegmentsF_total measure maxW F _ x0 out0 ?_ ?_
      · intro seg hseg w hw c hcw
        rcases mem_of_mem_mkWords seg w c hw hcw with rfl | hcs
        · exact hsp
        · exact hc c (mem_of_mem_splitP _ text seg c hseg hcs)
      · intro seg hseg
        exact List.single_le_sum (fun _ _ => Nat.zero_le _) _
          (List.mem_map.mpr ⟨seg, hseg, rfl⟩)
    by_cases h1 : maxW < (if 0 < x then x + measure [' '] else x)
    · obtain ⟨r, hr⟩ := htotal 0 [[]]
      refine ⟨F, r, ?_⟩
      unfold wrapLines wrapAfterSpace
      rw [if_neg h0, if_pos h1]
      exact hr
    · obtain ⟨r, hr⟩ := htotal (if 0 < x then x + measure [' '] else x) []
      refine ⟨F, r, ?_⟩
      unfold wrapLines wrapAfterSpace
      rw [if_neg h0, if_neg h1]
      exact hr

theorem wrapLines_terminates_witness :
    ∃ fuel out, wrapLines fuel (fun s => s.length) 10 0 ("hi").data = some out :=
  wrapLines_terminates (fun s => s.length) 10 0 ("hi").data
    (by decide) (by decide)

/-- C2 (counterexample). With a measure giving every string width 2
and `maxWidth = 1`, wrapping the single-character text `"a"` never
terminates: the loop pops `'a'`, fails the width test, explodes it to
`['a']` and is back in the same state.  No fuel makes the loop finish,
refuting "wrapLines terminates … including when a single character's
own measured width exceeds maxWidth". -/
theorem wrapLines_diverges_counterexample :
    ¬ ∃ fuel out, wrapLines fuel (fun _ => 2) 1 0 ['a'] = some out := by
  have key : ∀ fuel, procWordsF (fun _ => 2) 1 fuel [['a']] 0 [] [] = none := by
    intro fuel
    induction fuel with
    | zero => rfl
    | succ n ih => simpa [procWordsF, explode] using ih
  rintro ⟨fuel, out, h⟩
  have h2 : procSegmentsF (fun _ => 2) 1 fuel [['a']] 0 [] = some out := by
    simpa [wrapLines, wrapAfterSpace,
      show splitP (fun c => c = '\n') ['a'] = [['a']] from rfl] using h
  rw [show ([['a']] : List Str) = [['a']] from rfl, procSegmentsF,
    show mkWords ['a'] = [['a']] from rfl, key fuel] at h2
  exact absurd h2 (by simp)

/-! ## Content preservation when exploding an oversized token (C9) -/

theorem explode_join (w : Str) : (explode w).flatten = w := by
  induction w with
  | nil => rfl
  | cons c cs ih => simp [explode] at ih ⊢; exact ih

theorem splitP_eq_self (p : Char → Bool) (t : Str) (h : ∀ c ∈ t, p c = false) :
    splitP p t = [t] := by
  induction t with
  | nil => rfl
  | cons a t ih =>
    have ha : p a = false := h a (List.mem_cons_self _ _)
    have ht := ih (fun c hc => h c (List.mem_cons_of_mem _ hc))
    simp [splitP, ha, ht]

theorem trimLeft_eq_self (t : Str) (h : ∀ c ∈ t, isWs c = false) :
    trimLeft t = t := by
  unfold trimLeft
  cases t with
  | nil => rfl
  | cons a t => simp [List.dropWhile_cons, h a (List.mem_cons_self _ _)]

theorem splitNl_eq_self (t : Str) (hws : ∀ c ∈ t, isWs c = false) :
    splitP (fun c => c = '\n') t = [t] := by
  refine splitP_eq_self _ t ?_
  intro c hc
  by_cases h : c = '\n'
  · subst h
    exact absurd (hws '\n' hc) (by decide)
  · simp [h]

theorem mkWords_eq_self (t : Str) (hws : ∀ c ∈ t, isWs c = false) :
    mkWords t = [t] := by
  unfold mkWords
  rw [splitP_eq_self isWs t hws]
  rfl

/-- The `while` loop neither loses, duplicates nor reorders characters
of whitespace-free tokens: the concatenation of everything flushed plus
the buffer plus the pending tokens is preserved. -/
theorem procWordsF_join (measure : Str → ℕ) (maxW : ℕ) :
    ∀ fuel ws x line out x' line' out',
      procWordsF measure maxW fuel ws x line out = some (x', line', out') →
      (∀ w ∈ ws, ∀ c ∈ w, isWs c = false) →
      out'.flatten ++ line' = out.flatten ++ line ++ ws.flatten := by
  intro fuel
  induction fuel with
  | zero =>
    intro ws x line out x' line' out' h _
    match ws, h with
    | [], h =>
      simp only [procWordsF, Option.some.injEq, Prod.mk.injEq] at h
      obtain ⟨rfl, rfl, rfl⟩ := h
      simp
    | _ :: _, h => simp [procWordsF] at h
  | succ fuel ih =>
    intro ws x line out x' line' out' h hok
    match ws, h with
    | [], h =>
      simp only [procWordsF, Option.some.injEq, Prod.mk.injEq] at h
      obtain ⟨rfl, rfl, rfl⟩ := h
      simp
    | w :: ws, h =>
      have hwfree : ∀ c ∈ w, isWs c = false := hok w (List.mem_cons_self _ _)
      simp only [procWordsF] at h
      split_ifs at h with hw hx
      · have := ih _ _ _ _ _ _ _ h (by
          intro w' hw' c hc'
          rcases List.mem_append.mp hw' with hw' | hw'
          · obtain ⟨c0, hc0, rfl⟩ := List.mem_map.mp hw'
            rcases List.mem_singleton.mp hc' with rfl
            exact hwfree c hc0
          · exact hok w' (List.mem_cons_of_mem _ hw') c hc')
        rw [this]
        simp [explode_join]
      · have := ih _ _ _ _ _ _ _ h
          (fun w' hw' c hc' => hok w' (List.mem_cons_of_mem _ hw') c hc')
        rw [this, trimLeft_eq_self w hwfree]
        simp
      · have := ih _ _ _ _ _ _ _ h
          (fun w' hw' c hc' => hok w' (List.mem_cons_of_mem _ hw') c hc')
        rw [this]
        simp

/-- C9. Wrapping a whitespace-free token wider than `maxWidth`, each
of whose characters fits, alone at `startX = 0`: the concatenation of
the produced lines reproduces the token exactly. -/
theorem wrapLines_oversized_roundtrip (measure : Str → ℕ) (maxW fuel : ℕ)
    (t : Str) (out : List Str)
    (hws : ∀ c ∈ t, isWs c = false)
    (_hbig : maxW < measure t)
    (_hfit : ∀ c ∈ t, measure [c] ≤ maxW)
    (h : wrapLines fuel measure maxW 0 t = some out) :
    out.flatten = t := by
  unfold wrapLines wrapAfterSpace at h
  rw [if_neg (by simp), if_neg (by decide : ¬(0:ℕ) < 0),
    if_neg (Nat.not_lt.mpr (Nat.zero_le maxW)), splitNl_eq_self t hws] at h
  simp only [procSegmentsF] at h
  cases hw : procWordsF measure maxW fuel (mkWords t) 0 [] [] with
  | none => rw [hw] at h; exact absurd h (by simp)
  | some r =>
    obtain ⟨x1, line, out1⟩ := r
    rw [hw] at h
    have hj := procWordsF_join measure maxW fuel _ _ _ _ _ _ _ hw (by
      rw [mkWords_eq_self t hws]
      intro w hw' c hc
      rcases List.mem_singleton.mp hw' with rfl
      exact hws c hc)
    rw [mkWords_eq_self t hws] at hj
    simp only [List.flatten, List.flatten_nil, List.nil_append, List.append_nil] at hj
    simp only [procSegmentsF, Option.some.injEq] at h
    subst h
    split
    · next hline => rw [hline] at hj; simpa using hj
    · simpa using hj

theorem wrapLines_oversized_roundtrip_witness :
    List.flatten [['a','b'], ['c']] = ('a' :: 'b' :: 'c' :: []) :=
  wrapLines_oversized_roundtrip (fun s => 2 * s.length) 4 100
    ('a' :: 'b' :: 'c' :: []) [['a','b'], ['c']]
    (by decide) (by decide) (by decide) (by decide)

/-! ## The leading-space adjustment of `startX` (C10) -/

/-- C10. For non-empty text and `startX > 0`, `wrapLines` adds the
measured width of one space to the starting offset before fitting
(first conjunct, the `if (x > 0) x += width[' ']` line); consequently a
single token that would exactly fill the remaining space at `startX`
is pushed to a new line, the first produced line being the empty
reservation line (second conjunct); with `startX = 0` no space is added
and the same token is returned on a single line (third conjunct). -/
theorem wrapLines_leading_space (measure : Str → ℕ) (maxW x fuel : ℕ) (t : Str)
    (hx : 0 < x) (ht : t ≠ [])
    (hws : ∀ c ∈ t, isWs c = false)
    (_hfit : measure t ≤ maxW)
    (hexact : x + measure t = maxW)
    (hsp : 1 ≤ measure [' ']) :
    wrapLines fuel measure maxW x t =
        wrapAfterSpace fuel measure maxW (x + measure [' ']) t
      ∧ wrapLines (fuel + 1) measure maxW x t = some [[], t]
      ∧ wrapLines (fuel + 1) measure maxW 0 t = some [t] := by
  have hsegs := splitNl_eq_self t hws
  have hmk := mkWords_eq_self t hws
  have htrim := trimLeft_eq_self t hws
  refine ⟨?_, ?_, ?_⟩
  · unfold wrapLines
    rw [if_neg (by simp [ht]), if_pos hx]
  · unfold wrapLines wrapAfterSpace
    rw [if_neg (by simp [ht]), if_pos hx, hsegs]
    split_ifs with hbig
    · simp only [procSegmentsF, hmk]
      have hstep : procWordsF measure maxW (fuel + 1) [t] 0 [] [[]] =
          some (0 + measure t, [] ++ t, [[]]) := by
        simp only [procWordsF]
        rw [if_neg (by omega), if_neg (by omega)]
      rw [hstep]
      simp [procSegmentsF, ht]
    · simp only [procSegmentsF, hmk]
      have hstep : procWordsF measure maxW (fuel + 1) [t]
          (x + measure [' ']) [] [] =
          some (measure (trimLeft t), trimLeft t, [] ++ [[]]) := by
        simp only [procWordsF]
        rw [if_neg (by omega), if_pos (by omega)]
      rw [hstep, htrim]
      simp [procSegmentsF, ht]
  · unfold wrapLines wrapAfterSpace
    rw [if_neg (by simp), if_neg (by decide : ¬(0:ℕ) < 0),
      if_neg (Nat.not_lt.mpr (Nat.zero_le maxW)), hsegs]
    simp only [procSegmentsF, hmk]
    have hstep : procWordsF measure maxW (fuel + 1) [t] 0 [] [] =
        some (0 + measure t, [] ++ t, []) := by
      simp only [procWordsF]
      rw [if_neg (by omega), if_neg (by omega)]
    rw [hstep]
    simp [procSegmentsF, ht]

theorem wrapLines_leading_space_witness :
    wrapLines 100 (fun s => s.length) 5 3 ('a' :: 'b' :: []) =
        wrapAfterSpace 100 (fun s => s.length) 5
          (3 + (fun s => s.length) [' ']) ('a' :: 'b' :: [])
      ∧ wrapLines 101 (fun s => s.length) 5 3 ('a' :: 'b' :: []) =
          some [[], 'a' :: 'b' :: []]
      ∧ wrapLines 101 (fun s => s.length) 5 0 ('a' :: 'b' :: []) =
          some ['a' :: 'b' :: []] :=
  wrapLines_leading_space (fun s => s.length) 5 3 100 ('a' :: 'b' :: [])
    (by decide) (by decide) (by decide) (by decide) (by decide) (by decide)

/-! ## Explicit newlines and blank lines (C3) -/

/-- C3 (counterexample). Wrapping `"a\n\nb"` at a `maxWidth` that
fits each letter (every character 1px wide, `maxWidth = 5`) yields TWO
lines, `"a"` and `"b"` — not the three lines `"a"`, `""`, `"b"` the
claim asserts: the empty segment between the explicit newlines appends
an empty token to an in-range line buffer and the final
`if (line) output_lines.push(line)` drops the empty buffer. -/
theorem wrapLines_blank_collapsed_counterexample :
    wrapLines 100 (sumW fun _ => 1) 5 0 ("a\n\nb").data = some [['a'], ['b']]
      ∧ wrapLines 100 (sumW fun _ => 1) 5 0 ("a\n\nb").data ≠
          some [['a'], [], ['b']] :=
  ⟨by decide, by decide⟩

/-- C3 (amended). For every additive measure and `maxWidth` on which
`"a"` and `"b"` fit together on one line, wrapping `"a\n\nb"` yields
exactly the two lines `"a"` and `"b"`: an empty segment between explicit
newlines yields no output line (blank lines are collapsed; an empty
line is emitted for a segment only via the flush path, which an empty
segment cannot trigger while the running `x` is within `maxWidth`). -/
theorem wrapLines_blank_line_collapsed (cw : Char → ℕ) (maxW fuel : ℕ)
    (hab : cw 'a' + cw 'b' ≤ maxW) :
    wrapLines (fuel + 1) (sumW cw) maxW 0 ("a\n\nb").data =
      some [['a'], ['b']] := by
  have ha : sumW cw ['a'] = cw 'a' := by simp [sumW]
  have hb : sumW cw ['b'] = cw 'b' := by simp [sumW]
  unfold wrapLines wrapAfterSpace
  rw [if_neg (by simp), if_neg (by decide : ¬(0:ℕ) < 0),
    if_neg (Nat.not_lt.mpr (Nat.zero_le maxW)),
    show splitP (fun c => c = '\n') ("a\n\nb").data = [['a'], [], ['b']]
      from by decide]
  have hw1 : procWordsF (sumW cw) maxW (fuel + 1) [['a']] 0 [] [] =
      some (0 + sumW cw ['a'], [] ++ ['a'], []) := by
    simp only [procWordsF]
    rw [if_neg (by rw [ha]; omega), if_neg (by rw [ha]; omega)]
  have hw2 : procWordsF (sumW cw) maxW (fuel + 1) [[]] (cw 'a') [] [['a']] =
      some (cw 'a', [], [['a']]) := by
    simp only [procWordsF]
    rw [if_neg (by simp [sumW]), if_neg (by simp [sumW]; omega)]
    simp [procWordsF, sumW]
  have hw3 : procWordsF (sumW cw) maxW (fuel + 1) [['b']] (cw 'a') [] [['a']] =
      some (cw 'a' + sumW cw ['b'], [] ++ ['b'], [['a']]) := by
    simp only [procWordsF]
    rw [if_neg (by rw [hb]; omega), if_neg (by rw [hb]; omega)]
  simp only [procSegmentsF, show mkWords ['a'] = [['a']] from rfl,
    show mkWords [] = [[]] from rfl, show mkWords ['b'] = [['b']] from rfl,
    ha, hb, List.nil_append, Nat.zero_add] at hw1 hw2 hw3 ⊢
  rw [hw1]
  simp [hw2, hw3, procSegmentsF]

theorem wrapLines_blank_line_collapsed_witness :
    wrapLines 100 (sumW fun _ => 1) 5 0 ("a\n\nb").data =
      some [['a'], ['b']] :=
  wrapLines_blank_line_collapsed (fun _ => 1) 5 99 (by decide)

/-! ## Raster dimension fitting (C8) -/

/-- C8 (counterexample). For a 16×17 image on paper of width 8 the
code truncates the scaled height 8.5 to 8 *before* rounding up, giving
height 8, whereas `roundUp8(h · min(w, p) / w) = roundUp8(8.5) = 16`:
the claim's height formula does not hold for fractional scaled
heights. -/
theorem resize_height_counterexample :
    resize 8 16 17 = (8, 8) ∧ claimHeightQ 8 16 17 = 16 ∧
      (((resize 8 16 17).2 : ℕ) : ℚ) ≠ claimHeightQ 8 16 17 := by
  have hceil : ⌈(17 : ℚ) / 16⌉ = 2 := by
    rw [Int.ceil_eq_iff]
    norm_num
  refine ⟨by decide, ?_, ?_⟩
  · norm_num [claimHeightQ]
    rw [hceil]
    norm_num
  · intro h
    rw [show resize 8 16 17 = (8, 8) from by decide] at h
    norm_num [claimHeightQ] at h
    rw [hceil] at h
    exact absurd h (by decide)

/-- C8 (amended). `resize` returns width `roundUp8(min(w, p))` and
height `roundUp8(⌊h · min(w, p) / w⌋)` — the proportionally scaled
height is truncated to an integer before being rounded up — and `ru8`
really is "round up to the nearest multiple of 8".  In particular a
1000×500 image on 384-pixel paper yields 384×192. -/
theorem resize_spec (p w h : ℕ) (_hw : 0 < w) :
    resize 384 1000 500 = (384, 192)
      ∧ (resize p w h).1 = ru8 (min w p)
      ∧ (resize p w h).2 = ru8 ⌊((h : ℚ) * (min w p : ℚ) / (w : ℚ))⌋₊
      ∧ (∀ n : ℕ, n ≤ ru8 n ∧ ru8 n < n + 8 ∧ 8 ∣ ru8 n) := by
  refine ⟨by decide, rfl, ?_, ?_⟩
  · have hcast : ((h : ℚ) * (min w p : ℚ)) = ((h * min w p : ℕ) : ℚ) := by
      push_cast; ring
    rw [hcast, Nat.floor_div_nat]
    rfl
  · intro n
    refine ⟨?_, ?_, dvd_mul_left 8 _⟩
    · unfold ru8; omega
    · unfold ru8; omega

theorem resize_spec_witness :
    resize 384 1000 500 = (384, 192)
      ∧ (resize 384 1000 500).1 = ru8 (min 1000 384)
      ∧ (resize 384 1000 500).2 =
          ru8 ⌊((500 : ℚ) * ((min 1000 384 : ℕ) : ℚ) / ((1000 : ℕ) : ℚ))⌋₊
      ∧ (∀ n : ℕ, n ≤ ru8 n ∧ ru8 n < n + 8 ∧ 8 ∣ ru8 n) :=
  resize_spec 384 1000 500 (by norm_num)

/-! ## QR emission lemmas for the canvas walker -/

theorem qrDatas_append (a b : Trace') :
    qrDatas (a ++ b) = qrDatas a ++ qrDatas b := by
  induction a with
  | nil => rfl
  | cons o rest ih => cases o <;> simp [qrDatas, ih]

theorem qrDatas_drawRuns (lh : ℕ) (st : RunStyle) :
    ∀ (ls : List Str) (x y : ℕ), qrDatas (drawRuns lh st ls x y).1 = [] := by
  intro ls
  induction ls with
  | nil => intro x y; rfl
  | cons l ls ih =>
    intro x y
    cases ls with
    | nil => rfl
    | cons l' ls' => simp only [drawRuns, qrDatas]; exact ih 0 (y + lh)

/-- The function `drawText` only paints text runs: it emits no QR blocks. -/
theorem qrDatas_drawText (cfg : RCfg) (text : Str) (opts : Options) (c : Cur)
    (t : Trace') (c' : Cur) (h : drawText cfg text opts c = some (t, c')) :
    qrDatas t = [] := by
  simp only [drawText] at h
  split at h
  · exact absurd h (by simp)
  · simp only [Option.some.injEq, Prod.mk.injEq] at h
    rw [← h.1]
    rfl
  · split_ifs at h <;>
      (simp only [Option.some.injEq, Prod.mk.injEq] at h
       rw [← h.1]
       exact qrDatas_drawRuns _ _ _ _ _)

theorem qrDatas_newlineF (cfg : RCfg) (c : Cur) (safe : Bool) :
    qrDatas (newlineF cfg c safe).1 = [] := by
  unfold newlineF
  by_cases hx : 0 < c.x
  · simp only [hx, if_true]
    cases hd : drawText cfg [] { newline := true } c with
    | none => split <;> rfl
    | some r =>
      have := qrDatas_drawText cfg [] { newline := true } c r.1 r.2 (by rw [hd])
      split <;> simpa using this
  · simp only [hx, if_false]
    split <;> rfl

/-- The function `drawQRCode` emits exactly one QR block, encoding its data. -/
theorem qrDatas_drawQRCode (cfg : RCfg) (dat : Str) (c : Cur) :
    qrDatas (drawQRCode cfg dat c).1 = [dat] := by
  unfold drawQRCode
  simp [qrDatas_append, qrDatas_newlineF, qrDatas]

/-! ## IMG fallback behaviour (C4) -/

/-- C4 (counterexample). An `IMG` whose source parses to a
non-`https:` URL and would even load fine is *skipped*: `drawImage`
returns the cursor unchanged without throwing, so the `catch` QR-code
fallback never runs and nothing at all is emitted — refuting "when the
source URL's scheme is not https, the walker emits a QR-code block". -/
theorem drawHTML_img_insecure_skipped_counterexample :
    drawHTML { testCfg with env := fun _ => .scheme "http:" (some (40, 40)) }
        (.elem "IMG" { src := ['s'] } []) {} ⟨3, 7, fontOf {}⟩ =
      some ([], ⟨3, 7, fontOf {}⟩) := by decide

/-- C4 (amended). For every `IMG` element: when the source URL
fails to parse, or parses as `https:` but the fetch/decode rejects, the
walker emits exactly one QR block encoding the raw source (the `catch`
fallback); but when the URL parses with a scheme other than `https:`,
the element is silently skipped — no QR block, no image, cursor
unchanged. -/
theorem drawHTML_img_fallback (cfg : RCfg) (opts : Options) (c : Cur)
    (attrs : Attrs) (s : String) (w h : ℕ) :
    (cfg.env attrs.src = .parseError →
      ∃ t c', drawHTML cfg (.elem "IMG" attrs []) opts c = some (t, c')
        ∧ qrDatas t = [attrs.src])
  ∧ (cfg.env attrs.src = .scheme "https:" none →
      ∃ t c', drawHTML cfg (.elem "IMG" attrs []) opts c = some (t, c')
        ∧ qrDatas t = [attrs.src])
  ∧ (cfg.env attrs.src = .scheme s (some (w, h)) → s ≠ "https:" →
      drawHTML cfg (.elem "IMG" attrs []) opts c = some ([], c)) := by
  refine ⟨?_, ?_, ?_⟩
  · intro h0
    refine ⟨(drawQRCode cfg attrs.src c).1, (drawQRCode cfg attrs.src c).2,
      ?_, qrDatas_drawQRCode cfg attrs.src c⟩
    simp only [drawHTML]
    rw [show drawImage cfg attrs.src c = .error () from by
      unfold drawImage; rw [h0]]
    simp [drawHTMLList]
  · intro h0
    refine ⟨(drawQRCode cfg attrs.src c).1, (drawQRCode cfg attrs.src c).2,
      ?_, qrDatas_drawQRCode cfg attrs.src c⟩
    simp only [drawHTML]
    rw [show drawImage cfg attrs.src c = .error () from by
      unfold drawImage; rw [h0]; simp]
    simp [drawHTMLList]
  · intro h0 hs
    simp only [drawHTML]
    rw [show drawImage cfg attrs.src c = .ok ([], c) from by
      unfold drawImage; rw [h0]; simp [hs]]
    simp [drawHTMLList]

theorem drawHTML_img_fallback_witness :
    ∃ t c', drawHTML testCfg (.elem "IMG" { src := ['s'] } []) {}
        ⟨3, 7, fontOf {}⟩ = some (t, c') ∧ qrDatas t = [['s']] :=
  (drawHTML_img_fallback testCfg {} ⟨3, 7, fontOf {}⟩ { src := ['s'] }
    "http:" 40 40).1 (by decide)

/-! ## Anchor rendering (C5) -/

/-- C5 (counterexample). Rendering `<a href="u">go</a>` emits the QR
block *and* the anchor's text as an ordinary run: the `switch` case for
`A` only `break`s out of the switch, after which the unconditional
child loop still descends — refuting "the anchor's text content is
never additionally rendered as text runs". -/
theorem drawHTML_anchor_text_counterexample :
    (drawHTML testCfg (.elem "A" { href := ['u'] } [.text ('g' :: 'o' :: [])])
        {} ⟨0, 0, fontOf {}⟩).map (fun r => (runTexts r.1, qrDatas r.1)) =
      some ([('g' :: 'o' :: [])], [['u']]) := by decide

/-- C5 (amended). For every `A` element the walker emits one QR
block encoding the `href` and then *does* descend into the element's
children with the unchanged style context, so anchor text content is
additionally rendered. -/
theorem drawHTML_anchor (cfg : RCfg) (attrs : Attrs) (kids : List Node)
    (opts : Options) (c : Cur) :
    drawHTML cfg (.elem "A" attrs kids) opts c =
      (match drawHTMLList cfg kids opts (drawQRCode cfg attrs.href c).2 with
       | none => none
       | some (t2, c2) => some ((drawQRCode cfg attrs.href c).1 ++ t2, c2))
    ∧ qrDatas (drawQRCode cfg attrs.href c).1 = [attrs.href] := by
  exact ⟨by simp only [drawHTML], qrDatas_drawQRCode cfg attrs.href c⟩

/-! ## Scale > 1 and line breaks (C7) -/

/-- C7 (counterexample). Rendering `<h1>T</h1>` with the cursor at
`x = 5` draws the heading's first (and only) line at `x = 5`, not at
`x = 0`: no line break is forced *before* the scaled content (only
after — the returned cursor has `x = 0`).  This refutes "the element's
first text line starts at x = 0 regardless of the incoming cursor
x". -/
theorem drawHTML_heading_midline_counterexample :
    drawHTML testCfg (.elem "H1" {} [.text ['T']]) {} ⟨5, 0, fontOf {}⟩ =
      some ([Out.run ['T'] 5 10
          ⟨⟨false, false, 6000, false⟩, false, false, false⟩],
        ⟨0, 10, ⟨false, false, 6000, false⟩⟩) := by decide

theorem drawRuns_first (lh : ℕ) (st : RunStyle) (l : Str) (ls : List Str)
    (x y : ℕ) :
    ∃ rest, (drawRuns lh st (l :: ls) x y).1 = Out.run l x y st :: rest := by
  cases ls with
  | nil => exact ⟨[], rfl⟩
  | cons l' ls' => exact ⟨_, rfl⟩

/-- C7 (amended). A text run whose effective scale exceeds 1 forces
a line break *after* itself: whenever it draws anything, the returned
cursor has `x = 0`.  No break is forced *before* it: its first drawn
line starts exactly at the incoming cursor `x`. -/
theorem drawText_scale_breaks_after (cfg : RCfg) (text : Str)
    (opts : Options) (c : Cur) (t : Trace') (c' : Cur)
    (hscale : 100 < effScale opts)
    (h : drawText cfg text opts c = some (t, c')) :
    (t ≠ [] → c'.x = 0)
      ∧ (∀ l x y st, t.head? = some (Out.run l x y st) → x = c.x) := by
  simp only [drawText] at h
  split at h
  · exact absurd h (by simp)
  · simp only [Option.some.injEq, Prod.mk.injEq] at h
    rw [← h.1]
    exact ⟨fun hne => absurd rfl hne, fun l x y st hh => by simp at hh⟩
  · rename_i l ls' hw
    rw [if_pos (by simp [hscale])] at h
    simp only [Option.some.injEq, Prod.mk.injEq] at h
    obtain ⟨rfl, rfl⟩ := h
    refine ⟨fun _ => rfl, ?_⟩
    intro l0 x0 y0 st0 hh
    obtain ⟨rest, hr⟩ := drawRuns_first (cfg.lhF (fontOf opts))
      ⟨fontOf opts, opts.invert, opts.strike, opts.underline⟩ l ls'
      c.x (c.y + cfg.lhF (fontOf opts))
    rw [hr] at hh
    simp only [List.head?_cons, Option.some.injEq] at hh
    exact ((Out.run.injEq _ _ _ _ _ _ _ _).mp hh.symm).2.1

theorem drawText_scale_breaks_after_witness :
    Cur.x ⟨0, 10, ⟨false, false, 6000, false⟩⟩ = 0
      ∧ (5 : ℕ) = Cur.x ⟨5, 0, fontOf {}⟩ :=
  ⟨(drawText_scale_breaks_after testCfg ['T'] { scale := 200 } ⟨5, 0, fontOf {}⟩
      [Out.run ['T'] 5 10 ⟨⟨false, false, 6000, false⟩, false, false, false⟩]
      ⟨0, 10, ⟨false, false, 6000, false⟩⟩ (by decide)
      (by decide)).1 (by decide),
   (drawText_scale_breaks_after testCfg ['T'] { scale := 200 } ⟨5, 0, fontOf {}⟩
      [Out.run ['T'] 5 10 ⟨⟨false, false, 6000, false⟩, false, false, false⟩]
      ⟨0, 10, ⟨false, false, 6000, false⟩⟩ (by decide)
      (by decide)).2 ['T'] 5 10
      ⟨⟨false, false, 6000, false⟩, false, false, false⟩ (by decide)⟩

/-! ## Style restoration across siblings (C6) -/

/-- C6 (counterexample). In the encoder walker the `after` callback
restores a flag to its *default*, not to its previous value: after the
inner `<b>` of `<b>a<b>b</b>c</b>` closes, the effective style is
non-bold although it was bold before entering it, and the following
sibling text `c` is printed non-bold.  This refutes "after all children
of an element are traversed, the effective style context equals what it
was before entering that element" for the `formatHTML` walker. -/
theorem formatHTML_nested_style_counterexample :
    encStateAfter (formatHTML (fun _ => none) 32 (.elem "B" {} [.text ['b']]))
        { bold := true } ≠ ({ bold := true } : EncStyle)
      ∧ encRuns (formatHTML (fun _ => none) 32
          (.elem "B" {} [.text ['a'], .elem "B" {} [.text ['b']],
            .text ['c']])) {} =
        [(['a'], { bold := true }), (['b'], { bold := true }),
         (['c'], { bold := false })] :=
  ⟨by decide, by decide⟩

/-- C6 (amended). In the canvas walker (`drawHTML`) the claim
holds: the style context is passed by value (`structuredClone`), so
after an element is rendered its following siblings are rendered with
the parent's unchanged context — concretely, `<b>bold</b> plain` yields
a bold run followed by a non-bold run.  In the encoder walker
(`formatHTML`) closing an element resets its style flag to the
*default* rather than the pre-entry value (e.g. after any `B` element
the effective bold flag is `false` no matter what it was before), so
nested same-styled elements leak the reset to their following
siblings. -/
theorem style_restoration (cfg : RCfg) (opts : Options) (c : Cur)
    (e : Node) (sibs : List Node) (t1 : Trace') (c1 : Cur)
    (envE : Str → Option (ℕ × ℕ)) (columns : ℕ) (attrs : Attrs)
    (kids : List Node) (st : EncStyle)
    (h : drawHTML cfg e opts c = some (t1, c1)) :
    (drawHTMLList cfg (e :: sibs) opts c =
      match drawHTMLList cfg sibs opts c1 with
      | none => none
      | some (t2, c2) => some (t1 ++ t2, c2))
  ∧ ((runStyles · |>.map (fun r => (r.1, r.2.font.bold))) <$>
      ((drawHTMLList testCfg
        [.elem "B" {} [.text ("bold").data], .text (" plain").data]
        {} ⟨0, 0, fontOf {}⟩).map Prod.fst) =
      some [(("bold").data, true), ((" plain").data, false)])
  ∧ (encStateAfter (formatHTML envE columns (.elem "B" attrs kids)) st).bold
      = false := by
  refine ⟨?_, by decide, ?_⟩
  · simp only [drawHTMLList, h]
  · show (encStateAfter
      (Cmd.bold true :: formatHTMLList envE columns kids ++ [Cmd.bold false])
      st).bold = false
    simp [encStateAfter, List.foldl_append, encStep]

theorem style_restoration_witness :
    (drawHTMLList testCfg [.elem "B" {} [.text ['x']]] {} ⟨0, 0, fontOf {}⟩ =
      match drawHTMLList testCfg ([] : List Node) {}
          ⟨1, 0, ⟨false, true, 3000, false⟩⟩ with
      | none => none
      | some (t2, c2) =>
        some ([Out.run ['x'] 0 10
            ⟨⟨false, true, 3000, false⟩, false, false, false⟩] ++ t2, c2))
  ∧ ((runStyles · |>.map (fun r => (r.1, r.2.font.bold))) <$>
      ((drawHTMLList testCfg
        [.elem "B" {} [.text ("bold").data], .text (" plain").data]
        {} ⟨0, 0, fontOf {}⟩).map Prod.fst) =
      some [(("bold").data, true), ((" plain").data, false)])
  ∧ (encStateAfter (formatHTML (fun _ => none) 32 (.elem "B" {} []))
      { bold := true }).bold = false :=
  style_restoration testCfg {} ⟨0, 0, fontOf {}⟩ (.elem "B" {} [.text ['x']])
    [] [Out.run ['x'] 0 10 ⟨⟨false, true, 3000, false⟩, false, false, false⟩]
    ⟨1, 0, ⟨false, true, 3000, false⟩⟩ (fun _ => none) 32 {} []
    { bold := true } (by decide)
